import Mathlib

/-!
Verification of the Bellman-Ford single-source shortest-path solver
(`bellmanford.py`): the class `BellmanFord` with its method
`singleSourceShortestPath` and the helper `adjacency`.

The Python code is embedded shallowly:
* the weight matrix is a list of rows of `Option Int` cells (`None` = no edge);
* `sys.maxint` is the concrete constant `2 ^ 63 - 1` (Python 2 on a 64-bit
  platform); Python 2 integers never overflow, so distances are plain `Int`;
* the two working arrays `pred` and `minDist` are `List Int` components of an
  explicit state record that also carries the (read-only) weight matrix, so
  that frame properties are provable;
* the `raise Exception("Negative cycle found")` is an `Except.error`.

The relaxation loop header in the source is `for i in range(1, SIZE - 1)`,
which executes `SIZE - 2` iterations; `passIndices` reproduces exactly that
list of loop indices.
-/

set_option maxRecDepth 100000

/-- A matrix cell: `None` in Python (no edge) or an integer weight. -/
abbrev Weight := Option Int

/-- `sys.maxint` of Python 2 on a 64-bit platform, used as the INFINITY
sentinel (line 68 of the source). -/
def maxint : Int := 2 ^ 63 - 1

/-- `G[v][x]` as read by the Python code; out-of-range reads (which Python
would turn into `IndexError`) default to `none` / `0`-weight and are never
exercised by the claims, which all assume a square matrix and in-range
indices. -/
def cell (G : List (List Weight)) (v x : Nat) : Weight :=
  (G.getD v []).getD x none

/-- The integer weight stored at `G[v][x]`; meaningful only where
`(cell G v x).isSome`, which every use below guarantees via `adjacency`. -/
def wt (G : List (List Weight)) (v x : Nat) : Int :=
  (cell G v x).getD 0

/-- `BellmanFord.adjacency(self, G, v)` (lines 97-103): all `x` in
`range(len(G))` with `G[v][x] is not None`, appended in ascending order. -/
def adjacency (G : List (List Weight)) (v : Nat) : List Nat :=
  (List.range G.length).filter fun x => (cell G v x).isSome

/-- The mutable state of one `singleSourceShortestPath` call: the caller's
weight matrix plus the two freshly allocated working arrays. -/
structure BFState where
  weight : List (List Weight)
  pred : List Int
  minDist : List Int

/-- The body of the innermost loop (lines 81-83): relax edge `(v, x)` if
`minDist[x] > minDist[v] + weight[v][x]`. -/
def relaxEdge (s : BFState) (v x : Nat) : BFState :=
  if s.minDist.getD x 0 > s.minDist.getD v 0 + wt s.weight v x then
    { s with
      minDist := s.minDist.set x (s.minDist.getD v 0 + wt s.weight v x),
      pred := s.pred.set x (Int.ofNat v) }
  else s

/-- The loop `for x in self.adjacency(weight, v)` (line 80). -/
def relaxVertex (s : BFState) (v : Nat) : BFState :=
  (adjacency s.weight v).foldl (fun t x => relaxEdge t v x) s

/-- One full pass over the edge set: `for v in range(SIZE)` (line 79). -/
def relaxPass (s : BFState) : BFState :=
  (List.range s.weight.length).foldl relaxVertex s

/-- The loop indices of the outer relaxation loop, `range(1, SIZE - 1)`
(line 78): the list `[1, ..., SIZE - 2]`, of length `SIZE - 2`. -/
def passIndices (SIZE : Nat) : List Nat :=
  List.range' 1 (SIZE - 2)

/-- All relaxation passes performed by lines 78-83. -/
def relaxAll (s : BFState) : BFState :=
  (passIndices s.weight.length).foldl (fun t _ => relaxPass t) s

/-- The state after initialization (lines 66-75): `pred = [EVE] * SIZE`,
`minDist = [INFINITY] * SIZE`, `minDist[source] = 0`, with `EVE = -1`. -/
def initState (weight : List (List Weight)) (source : Nat) : BFState :=
  { weight := weight,
    pred := List.replicate weight.length (-1),
    minDist := (List.replicate weight.length maxint).set source 0 }

/-- The test of the cycle-detection pass at one edge (line 88). -/
def improvable (s : BFState) (v x : Nat) : Bool :=
  decide (s.minDist.getD v 0 + wt s.weight v x < s.minDist.getD x 0)

/-- Whether the cycle-detection pass (lines 86-89) raises. -/
def hasImprovableEdge (s : BFState) : Bool :=
  (List.range s.weight.length).any fun v =>
    (adjacency s.weight v).any (improvable s v)

/-- The Python class: its `__init__` stores nothing, so the structure has no
fields. -/
structure BellmanFord where

/-- `BellmanFord.singleSourceShortestPath(self, weight, source)`
(lines 64-91): initialization, `SIZE - 2` relaxation passes, then either the
`Negative cycle found` exception or the returned `[pred, minDist]` pair. -/
def BellmanFord.singleSourceShortestPath (_self : BellmanFord)
    (weight : List (List Weight)) (source : Nat) :
    Except String (List Int × List Int) :=
  if hasImprovableEdge (relaxAll (initState weight source)) then
    Except.error "Negative cycle found"
  else
    Except.ok ((relaxAll (initState weight source)).pred,
      (relaxAll (initState weight source)).minDist)

/-- The solver as a plain function (the method reads no instance state). -/
def singleSourceShortestPath (weight : List (List Weight)) (source : Nat) :
    Except String (List Int × List Int) :=
  BellmanFord.mk.singleSourceShortestPath weight source

/-- The 5-vertex weight matrix of `testBellmanFordWithPositiveEdges`
(lines 107-113). -/
def exampleMatrix : List (List Weight) :=
  [[none, some 10, none, none, some 3],
   [none, none, some 2, none, some 1],
   [none, none, none, some 7, none],
   [none, none, some 9, none, none],
   [none, some 4, some 8, some 2, none]]

/-- A 2-vertex acyclic graph with the single edge `0 -> 1` of weight 1. -/
def twoVertexMatrix : List (List Weight) :=
  [[none, some 1], [none, none]]

/-- A 4-vertex graph whose only edges form the negative cycle
`1 -> 2 -> 1` (both weights `-1`); nothing is reachable from vertex 0. -/
def unreachableCycleMatrix : List (List Weight) :=
  [[none, none, none, none],
   [none, none, some (-1), none],
   [none, some (-1), none, none],
   [none, none, none, none]]

/-- A 3-vertex graph whose only edge `1 -> 2` has weight `-5`; vertex 1 is
unreachable from the source 0, yet the missing infinity guard lets the pass
relax `minDist[2]` to `maxint - 5` and set `pred[2] = 1`. -/
def unreachedNegEdgeMatrix : List (List Weight) :=
  [[none, none, none],
   [none, none, some (-5)],
   [none, none, none]]

/-- A 3-vertex graph whose only edge `1 -> 0` carries the huge negative
weight `-(maxint + 5)`: relaxing from the unreached vertex 1 drives the
source's own distance to `-5` and gives the source a predecessor. -/
def hugeNegEdgeMatrix : List (List Weight) :=
  [[none, none, none],
   [some (-(maxint + 5)), none, none],
   [none, none, none]]

/-- C1: the outer loop `range(1, SIZE - 1)` performs `SIZE - 2` relaxation
passes, not the `V - 1` passes the claim (and the source's own comment on
line 77) states; on the 2-vertex single-edge graph it performs 0 passes and
the run then wrongly reports a negative cycle. -/
theorem c1_pass_count_off_by_one :
    (∀ n : Nat, (passIndices n).length = n - 2) ∧
      (passIndices 2).length = 0 ∧
      singleSourceShortestPath twoVertexMatrix 0 =
        Except.error "Negative cycle found" := by
  refine ⟨fun n => ?_, by decide, by rfl⟩
  simp [passIndices]

/-- C2: the negative-cycle exception is not equivalent to a reachable
negative cycle: on `unreachableCycleMatrix`, whose only cycle is not
reachable from source 0, the run still raises `Negative cycle found`. -/
theorem c2_raises_on_unreachable_cycle :
    singleSourceShortestPath unreachableCycleMatrix 0 =
      Except.error "Negative cycle found" := by rfl

/-- C3: a vertex whose distance is still the infinity sentinel does cause
updates: on `unreachedNegEdgeMatrix` the unreached vertex 1 relaxes vertex 2
to the garbage distance `maxint - 5` and records `pred[2] = 1`, because the
code compares `maxint > maxint + (-5)` without an infinity guard. -/
theorem c3_infinity_propagates :
    singleSourceShortestPath unreachedNegEdgeMatrix 0 =
      Except.ok ([-1, -1, 1], [0, maxint, maxint - 5]) := by rfl

/-- C5: on the bundled positive-edge example with source 0 the solver
returns distances `[0, 7, 9, 5, 3]` and predecessors `[-1, 4, 1, 4, 0]`
(`-1` = no predecessor) without raising. -/
theorem c5_positive_example :
    singleSourceShortestPath exampleMatrix 0 =
      Except.ok ([-1, 4, 1, 4, 0], [0, 7, 9, 5, 3]) := by rfl

/-- C7: on the single-vertex edgeless graph with source 0 the solver returns
distance array `[0]` and predecessor array `[-1]` without raising. -/
theorem c7_single_vertex :
    singleSourceShortestPath [[none]] 0 = Except.ok ([-1], [0]) := by rfl

/-- C10 counterexample: on `hugeNegEdgeMatrix` the solver returns
successfully, yet the source's predecessor entry is `1` (not the sentinel
`-1`) and the source's distance entry is `-5` (not `0`). -/
theorem c10_counterexample :
    singleSourceShortestPath hugeNegEdgeMatrix 0 =
        Except.ok ([1, -1, -1], [-5, maxint, maxint]) ∧
      (1 : Int) ≠ -1 ∧ (-5 : Int) ≠ 0 := by
  refine ⟨by rfl, by decide, by decide⟩

/-- Membership in `adjacency G v`: exactly the in-range columns whose cell
is present. -/
theorem mem_adjacency {G : List (List Weight)} {v x : Nat} :
    x ∈ adjacency G v ↔ x < G.length ∧ (cell G v x).isSome = true := by
  simp [adjacency, List.mem_filter, List.mem_range]

/-- C6: `adjacency(G, v)` lists exactly the in-range indices `x` with
`G[v][x]` present, and its output is strictly increasing (hence each such
index appears exactly once); it is a pure function of its arguments. -/
theorem c6_adjacency_characterization (G : List (List Weight)) (v : Nat)
    (hv : v < G.length) :
    (∀ x : Nat, x ∈ adjacency G v ↔ x < G.length ∧ (cell G v x).isSome = true) ∧
      List.Pairwise (fun a b => a < b) (adjacency G v) :=
  ⟨fun _ => mem_adjacency, List.Pairwise.filter _ (List.pairwise_lt_range _)⟩

/-- Witness for C6 at the bundled example matrix, row 4. -/
theorem c6_adjacency_characterization_witness :
    (1 ∈ adjacency exampleMatrix 4 ↔
        1 < exampleMatrix.length ∧ (cell exampleMatrix 4 1).isSome = true) ∧
      List.Pairwise (fun a b => a < b) (adjacency exampleMatrix 4) := by
  have h := c6_adjacency_characterization exampleMatrix 4 (by decide)
  exact ⟨h.1 1, h.2⟩

/-- C8: the solver is deterministic and stateless: the `BellmanFord` class
stores no fields, so any two instances (in particular, the same instance on
two successive calls) give identical results on the same matrix and source,
and the result equals the plain function of the two arguments. -/
theorem c8_deterministic_stateless :
    ∀ (b₁ b₂ : BellmanFord) (weight : List (List Weight)) (source : Nat),
      b₁.singleSourceShortestPath weight source =
          b₂.singleSourceShortestPath weight source ∧
        b₁.singleSourceShortestPath weight source =
          singleSourceShortestPath weight source :=
  fun _ _ _ _ => ⟨rfl, rfl⟩

/-- A fold whose step leaves the `weight` component unchanged leaves it
unchanged overall. -/
theorem foldl_weight_eq {α : Type} (f : BFState → α → BFState)
    (hf : ∀ t a, (f t a).weight = t.weight) (l : List α) :
    ∀ s : BFState, (l.foldl f s).weight = s.weight := by
  induction l with
  | nil => intro s; rfl
  | cons a l ih =>
    intro s
    rw [List.foldl_cons, ih, hf]

/-- A single relaxation step never touches the weight matrix. -/
theorem relaxEdge_weight (s : BFState) (v x : Nat) :
    (relaxEdge s v x).weight = s.weight := by
  unfold relaxEdge
  split <;> rfl

/-- One vertex's relaxations never touch the weight matrix. -/
theorem relaxVertex_weight (s : BFState) (v : Nat) :
    (relaxVertex s v).weight = s.weight :=
  foldl_weight_eq _ (fun t x => relaxEdge_weight t v x) _ s

/-- One full pass never touches the weight matrix. -/
theorem relaxPass_weight (s : BFState) : (relaxPass s).weight = s.weight :=
  foldl_weight_eq _ relaxVertex_weight _ s

/-- C9: the input weight matrix is read-only: after all relaxation passes
(the only state-mutating part of the call; the cycle-detection pass and the
raise/return mutate nothing) the matrix component of the state is
cell-for-cell the caller's matrix, for every input and source. -/
theorem c9_matrix_never_modified (weight : List (List Weight)) (source : Nat) :
    (relaxAll (initState weight source)).weight = weight :=
  foldl_weight_eq _ (fun t _ => relaxPass_weight t) _ _

/-- The initial distance table as a function: 0 at the source and the
INFINITY sentinel elsewhere. -/
def initDist (source x : Nat) : Int := if x = source then 0 else maxint

/-- The invariant every relaxation step preserves: the weight matrix and
array lengths are fixed; a recorded predecessor `pred[x] = p` points along a
real edge with `minDist[p] + weight[p][x] <= minDist[x]`; and each vertex
either still carries its initial pred/distance pair or has been strictly
improved and given a real predecessor. -/
structure BFInv (w : List (List Weight)) (source : Nat) (s : BFState) : Prop where
  hw : s.weight = w
  hpl : s.pred.length = w.length
  hml : s.minDist.length = w.length
  hedge : ∀ x p : Nat, s.pred.getD x (-1) = Int.ofNat p →
      p < w.length ∧ (cell w p x).isSome = true ∧
      s.minDist.getD p 0 + wt w p x ≤ s.minDist.getD x 0
  hfresh : ∀ x : Nat, x < w.length →
      s.pred.getD x (-1) = -1 ∧ s.minDist.getD x 0 = initDist source x ∨
      s.pred.getD x (-1) ≠ -1 ∧ s.minDist.getD x 0 < initDist source x

/-- Reading the all-`EVE` predecessor array anywhere gives `EVE = -1`. -/
theorem getD_replicate_eve (n x : Nat) :
    (List.replicate n (-1 : Int)).getD x (-1) = -1 := by
  rw [List.getD_eq_getElem?_getD, List.getElem?_replicate]
  split <;> rfl

/-- The invariant holds right after initialization. -/
theorem inv_initState (w : List (List Weight)) (source : Nat) :
    BFInv w source (initState w source) := by
  refine ⟨rfl, List.length_replicate _ _, ?_, ?_, ?_⟩
  · show ((List.replicate w.length maxint).set source 0).length = w.length
    rw [List.length_set, List.length_replicate]
  · intro x p hp
    rw [show (initState w source).pred = List.replicate w.length (-1) from rfl,
      getD_replicate_eve, Int.ofNat_eq_coe] at hp
    omega
  · intro x hx
    refine Or.inl ⟨getD_replicate_eve _ _, ?_⟩
    show ((List.replicate w.length maxint).set source 0).getD x 0 = initDist source x
    rw [List.getD_eq_getElem?_getD, List.getElem?_set]
    by_cases hxs : x = source
    · subst hxs
      rw [if_pos rfl, List.length_replicate, if_pos hx]
      simp [initDist]
    · rw [if_neg (fun hsx => hxs hsx.symm), List.getElem?_replicate, if_pos hx]
      simp [initDist, hxs]

/-- The predecessor array produced by one relaxation step. -/
theorem relaxEdge_pred (s : BFState) (v x : Nat) :
    (relaxEdge s v x).pred =
      if s.minDist.getD x 0 > s.minDist.getD v 0 + wt s.weight v x
      then s.pred.set x (Int.ofNat v) else s.pred := by
  unfold relaxEdge
  split <;> simp_all

/-- The distance array produced by one relaxation step. -/
theorem relaxEdge_minDist (s : BFState) (v x : Nat) :
    (relaxEdge s v x).minDist =
      if s.minDist.getD x 0 > s.minDist.getD v 0 + wt s.weight v x
      then s.minDist.set x (s.minDist.getD v 0 + wt s.weight v x)
      else s.minDist := by
  unfold relaxEdge
  split <;> simp_all

/-- One relaxation step on an in-range present edge preserves the
invariant. -/
theorem inv_relaxEdge {w : List (List Weight)} {source : Nat} {s : BFState}
    (hs : BFInv w source s) {v x : Nat} (hv : v < w.length) (hx : x < w.length)
    (he : (cell w v x).isSome = true) : BFInv w source (relaxEdge s v x) := by
  obtain ⟨hw, hpl, hml, h4, h5⟩ := hs
  by_cases hcond : s.minDist.getD x 0 > s.minDist.getD v 0 + wt s.weight v x
  · have hpred : (relaxEdge s v x).pred = s.pred.set x (Int.ofNat v) := by
      rw [relaxEdge_pred, if_pos hcond]
    have hmin : (relaxEdge s v x).minDist =
        s.minDist.set x (s.minDist.getD v 0 + wt s.weight v x) := by
      rw [relaxEdge_minDist, if_pos hcond]
    rw [hw] at hcond hmin
    have hxp : x < s.pred.length := by
      rw [hpl]
      exact hx
    have hxm : x < s.minDist.length := by
      rw [hml]
      exact hx
    obtain ⟨dnew, hdnew⟩ : ∃ d, s.minDist.getD v 0 + wt w v x = d := ⟨_, rfl⟩
    rw [hdnew] at hmin hcond
    have hpgx : (s.pred.set x (Int.ofNat v)).getD x (-1) = Int.ofNat v := by
      rw [List.getD_eq_getElem?_getD, List.getElem?_set_self hxp]
      rfl
    have hpgy : ∀ y : Nat, y ≠ x →
        (s.pred.set x (Int.ofNat v)).getD y (-1) = s.pred.getD y (-1) := by
      intro y hy
      rw [List.getD_eq_getElem?_getD, List.getElem?_set_ne (Ne.symm hy),
        ← List.getD_eq_getElem?_getD]
    have hmgx : (s.minDist.set x dnew).getD x 0 = dnew := by
      rw [List.getD_eq_getElem?_getD, List.getElem?_set_self hxm]
      rfl
    have hmgy : ∀ y : Nat, y ≠ x →
        (s.minDist.set x dnew).getD y 0 = s.minDist.getD y 0 := by
      intro y hy
      rw [List.getD_eq_getElem?_getD, List.getElem?_set_ne (Ne.symm hy),
        ← List.getD_eq_getElem?_getD]
    have hmle : ∀ y : Nat,
        (s.minDist.set x dnew).getD y 0 ≤ s.minDist.getD y 0 := by
      intro y
      by_cases hy : y = x
      · rw [hy, hmgx]
        omega
      · rw [hmgy y hy]
    refine ⟨(relaxEdge_weight s v x).trans hw, ?_, ?_, ?_, ?_⟩
    · rw [hpred, List.length_set]
      exact hpl
    · rw [hmin, List.length_set]
      exact hml
    · intro y p hp
      rw [hpred] at hp
      rw [hmin]
      by_cases hyx : y = x
      · rw [hyx] at hp ⊢
        rw [hpgx] at hp
        have hpv : v = p := Int.ofNat.inj hp
        rw [← hpv]
        refine ⟨hv, he, ?_⟩
        rw [hmgx]
        by_cases hvx : v = x
        · rw [hvx] at hdnew ⊢
          rw [hmgx]
          omega
        · rw [hmgy v hvx]
          omega
      · rw [hpgy y hyx] at hp
        obtain ⟨hpw, hps, hple⟩ := h4 y p hp
        refine ⟨hpw, hps, ?_⟩
        rw [hmgy y hyx]
        have h1 := hmle p
        omega
    · intro y hy
      rw [hpred, hmin]
      by_cases hyx : y = x
      · rw [hyx]
        refine Or.inr ⟨?_, ?_⟩
        · rw [hpgx, Int.ofNat_eq_coe]
          omega
        · rw [hmgx]
          rcases h5 x hx with ⟨_, hmx⟩ | ⟨_, hmx⟩ <;> omega
      · rw [hpgy y hyx, hmgy y hyx]
        exact h5 y hy
  · have hpred : (relaxEdge s v x).pred = s.pred := by
      rw [relaxEdge_pred, if_neg hcond]
    have hmin : (relaxEdge s v x).minDist = s.minDist := by
      rw [relaxEdge_minDist, if_neg hcond]
    refine ⟨(relaxEdge_weight s v x).trans hw, ?_, ?_, ?_, ?_⟩
    · rw [hpred]
      exact hpl
    · rw [hmin]
      exact hml
    · rw [hpred, hmin]
      exact h4
    · rw [hpred, hmin]
      exact h5

/-- A fold preserves a state predicate when its step does on every list
element. -/
theorem foldl_inv {α : Type} (P : BFState → Prop) (Q : α → Prop)
    (f : BFState → α → BFState) (hf : ∀ t a, P t → Q a → P (f t a)) :
    ∀ l : List α, (∀ a ∈ l, Q a) → ∀ s : BFState, P s → P (l.foldl f s) := by
  intro l
  induction l with
  | nil => intro _ s hs; exact hs
  | cons a l ih =>
    intro hl s hs
    rw [List.foldl_cons]
    exact ih (fun b hb => hl b (List.mem_cons_of_mem a hb)) _
      (hf s a hs (hl a (List.mem_cons_self a l)))

/-- Relaxing all outgoing edges of an in-range vertex preserves the
invariant. -/
theorem inv_relaxVertex {w : List (List Weight)} {source : Nat} {s : BFState}
    (hs : BFInv w source s) {v : Nat} (hv : v < w.length) :
    BFInv w source (relaxVertex s v) := by
  unfold relaxVertex
  rw [hs.hw]
  exact foldl_inv (BFInv w source)
    (fun x => x < w.length ∧ (cell w v x).isSome = true)
    (fun t x => relaxEdge t v x)
    (fun t x ht hx => inv_relaxEdge ht hv hx.1 hx.2)
    (adjacency w v) (fun x hxm => mem_adjacency.mp hxm) s hs

/-- One full relaxation pass preserves the invariant. -/
theorem inv_relaxPass {w : List (List Weight)} {source : Nat} {s : BFState}
    (hs : BFInv w source s) : BFInv w source (relaxPass s) := by
  unfold relaxPass
  rw [hs.hw]
  exact foldl_inv (BFInv w source) (fun v => v < w.length) relaxVertex
    (fun t v ht hv => inv_relaxVertex ht hv)
    (List.range w.length) (fun v hv => List.mem_range.mp hv) s hs

/-- All relaxation passes preserve the invariant. -/
theorem inv_relaxAll {w : List (List Weight)} {source : Nat} {s : BFState}
    (hs : BFInv w source s) : BFInv w source (relaxAll s) := by
  unfold relaxAll
  exact foldl_inv (BFInv w source) (fun _ => True) (fun t _ => relaxPass t)
    (fun t _ ht _ => inv_relaxPass ht)
    (passIndices s.weight.length) (fun _ _ => trivial) s hs

/-- Unpacking a successful run: the detection pass found nothing and the
returned arrays are the final state's working arrays. -/
theorem run_ok_elim {weight : List (List Weight)} {source : Nat}
    {pr md : List Int}
    (h : singleSourceShortestPath weight source = Except.ok (pr, md)) :
    hasImprovableEdge (relaxAll (initState weight source)) = false ∧
      (relaxAll (initState weight source)).pred = pr ∧
      (relaxAll (initState weight source)).minDist = md := by
  unfold singleSourceShortestPath BellmanFord.singleSourceShortestPath at h
  by_cases hb : hasImprovableEdge (relaxAll (initState weight source)) = true
  · rw [if_pos hb] at h
    exact absurd h (by simp)
  · rw [if_neg hb] at h
    simp only [Except.ok.injEq, Prod.mk.injEq] at h
    exact ⟨Bool.eq_false_iff.mpr hb, h.1, h.2⟩

/-- If the detection pass found nothing, no present edge can still improve
its head's distance. -/
theorem no_improvable_of_false {s : BFState}
    (h : hasImprovableEdge s = false) :
    ∀ v : Nat, v < s.weight.length → ∀ x ∈ adjacency s.weight v,
      ¬(s.minDist.getD v 0 + wt s.weight v x < s.minDist.getD x 0) := by
  intro v hv x hx
  unfold hasImprovableEdge at h
  rw [List.any_eq_false] at h
  have hv' : (adjacency s.weight v).any (improvable s v) = false :=
    Bool.eq_false_iff.mpr (h v (List.mem_range.mpr hv))
  rw [List.any_eq_false] at hv'
  have hx' := hv' x hx
  simpa [improvable] using hx'

/-- C4: whenever `singleSourceShortestPath` returns successfully, the
returned arrays are a fixed point: every vertex `x` whose predecessor entry
is a vertex `p` (not the `-1` sentinel) satisfies
`minDist[x] = minDist[p] + weight[p][x]`, and no edge `(v, x)` present in
the matrix can strictly reduce `minDist[x]`. -/
theorem c4_fixed_point_on_success (weight : List (List Weight)) (source : Nat)
    (pr md : List Int)
    (h : singleSourceShortestPath weight source = Except.ok (pr, md)) :
    (∀ x p : Nat, pr.getD x (-1) = Int.ofNat p →
        md.getD x 0 = md.getD p 0 + wt weight p x) ∧
      ∀ v x : Nat, v < weight.length → x ∈ adjacency weight v →
        ¬(md.getD v 0 + wt weight v x < md.getD x 0) := by
  obtain ⟨hb, hpr, hmd⟩ := run_ok_elim h
  have hinv : BFInv weight source (relaxAll (initState weight source)) :=
    inv_relaxAll (inv_initState weight source)
  have hni := no_improvable_of_false hb
  rw [hinv.hw] at hni
  constructor
  · intro x p hp
    rw [← hpr] at hp
    obtain ⟨hpw, hps, hle⟩ := hinv.hedge x p hp
    have hxlen : x < (relaxAll (initState weight source)).pred.length := by
      by_contra hge
      rw [List.getD_eq_default _ _ (Nat.le_of_not_lt hge),
        Int.ofNat_eq_coe] at hp
      omega
    have hxw : x < weight.length := by
      rw [← hinv.hpl]
      exact hxlen
    have hge := hni p hpw x (mem_adjacency.mpr ⟨hxw, hps⟩)
    rw [hmd] at hle hge
    omega
  · intro v x hv hx
    have hni' := hni v hv x hx
    rw [hmd] at hni'
    exact hni'

/-- Witness for C4 at the bundled positive example: vertex 2 has recorded
predecessor 1 and indeed `9 = 7 + weight[1][2]`. -/
theorem c4_fixed_point_on_success_witness :
    ([0, 7, 9, 5, 3] : List Int).getD 2 0 =
      ([0, 7, 9, 5, 3] : List Int).getD 1 0 + wt exampleMatrix 1 2 := by
  have h := c4_fixed_point_on_success exampleMatrix 0 [-1, 4, 1, 4, 0]
    [0, 7, 9, 5, 3] (by rfl)
  exact h.1 2 1 (by decide)

/-- C10 (amended): on every successful return both arrays have length
`len(weight)`, and the source's distance entry is `0` if and only if the
source's predecessor entry is still the sentinel `-1`; the unconditional
claim (distance always 0, predecessor always `-1`) fails on
`hugeNegEdgeMatrix`, where a weight of magnitude beyond `maxint` lets the
source acquire a predecessor. -/
theorem c10_success_lengths_and_source (weight : List (List Weight))
    (source : Nat) (pr md : List Int) (hsrc : source < weight.length)
    (h : singleSourceShortestPath weight source = Except.ok (pr, md)) :
    pr.length = weight.length ∧ md.length = weight.length ∧
      (md.getD source 0 = 0 ↔ pr.getD source (-1) = -1) := by
  obtain ⟨hb, hpr, hmd⟩ := run_ok_elim h
  have hinv : BFInv weight source (relaxAll (initState weight source)) :=
    inv_relaxAll (inv_initState weight source)
  refine ⟨by rw [← hpr]; exact hinv.hpl, by rw [← hmd]; exact hinv.hml, ?_⟩
  have h5 := hinv.hfresh source hsrc
  rw [hpr, hmd] at h5
  have hzero : initDist source source = 0 := by simp [initDist]
  rw [hzero] at h5
  rcases h5 with ⟨hp1, hm1⟩ | ⟨hp1, hm1⟩
  · exact ⟨fun _ => hp1, fun _ => hm1⟩
  · constructor
    · intro hmz
      exfalso
      omega
    · intro hpz
      exact absurd hpz hp1

/-- Witness for C10 at the bundled positive example with source 0. -/
theorem c10_success_lengths_and_source_witness :
    ([-1, 4, 1, 4, 0] : List Int).length = exampleMatrix.length ∧
      ([0, 7, 9, 5, 3] : List Int).length = exampleMatrix.length ∧
      (([0, 7, 9, 5, 3] : List Int).getD 0 0 = 0 ↔
        ([-1, 4, 1, 4, 0] : List Int).getD 0 (-1) = -1) :=
  c10_success_lengths_and_source exampleMatrix 0 [-1, 4, 1, 4, 0]
    [0, 7, 9, 5, 3] (by decide) (by rfl)
